import Mathlib

/-!
Verification of the QuickMigrate database-migration tool (`dbmigrator.py`).

The development shallowly embeds the core of `DBMigrator`:

* `DBRevision`           — the revision record (`dbmigrator.py`, class `DBRevision`);
* `apply_revision`       — transactional application of one revision
  (`DBMigrator.apply_revision`), with the database modelled as a state
  carrying the tracking-table rows and an abstract data payload, scripts as
  fallible state transformers, and the SQL transaction as commit-or-rollback;
* `build_revision_layers` — breadth-first dependency layering
  (`DBMigrator.build_revision_layers`); the `while` loop is embedded with an
  explicit iteration bound `W.card + 1`, which suffices because every
  iteration that does not break removes at least one revision from the
  working set;
* `get_applied_revisions` — reading the tracking table, with the outcome of
  the external database read as a parameter (`DBMigrator.get_applied_revisions`);
* `create_new_revision`  — revision-file creation over an association-list
  file system (`DBMigrator.create_new_revision`);
* `get_revision_dependencies` — ancestor-layer computation
  (`DBMigrator.get_revision_dependencies`); this loop can genuinely diverge
  on cyclic inputs, so it takes a fuel parameter and reports fuel exhaustion
  as a distinguished outcome.
-/

/-- State of the target database: the rows of the migration tracking table
(`none` when the table has not been created by `db_setup`), plus an abstract
payload standing for every other table a revision's script may touch. -/
structure DBState where
  table : Option (Finset String)
  data : Nat
deriving DecidableEq

/-- A revision's SQL script, modelled as a fallible transformer of the
database state (the database layer may reject the statements). -/
def Script : Type := DBState → Option DBState

/-- `class DBRevision` from `dbmigrator.py`. -/
structure DBRevision where
  revision_name : String
  dependencies : Finset String
  sql_text : Option Script
  active : Bool
  description : Option String

/-- `DBRevision.yaml_template`: a fresh revision with no script body,
`active = True` and no description. -/
def DBRevision.yaml_template (revision_name : String) (dependencies : Finset String) : DBRevision :=
  ⟨revision_name, dependencies, none, true, none⟩

/-- The migrator's state: the database plus the in-memory Applied-Set cache
`self.applied_revisions`. -/
structure MigratorState where
  db : DBState
  applied_revisions : Finset String
deriving DecidableEq

/-- The errors `apply_revision` can raise: the unmet-dependency guard
(carrying the revision name and the dependency set interpolated into the
message), table reflection failing, the database rejecting the script, and
the tracking table's primary-key violation. -/
inductive ApplyError where
  | unmetDependency (revision_name : String) (dependencies : Finset String)
  | noSuchTable
  | scriptError
  | duplicateKey
deriving DecidableEq

/-- Running `sql_conn.execute(revision.sql_text)`: a `None` script is
rejected by the database layer, otherwise the script transforms the state
or fails. -/
def executeScript : Option Script → DBState → Option DBState
  | none, _ => none
  | some f, db => f db

/-- Semantics of `with sql_conn.begin()`: the body's effects are kept on
success and discarded entirely (rollback) on failure. -/
def runTransaction (db : DBState) (body : DBState → Except ApplyError DBState) :
    Except ApplyError Unit × DBState :=
  match body db with
  | .ok db2 => (.ok (), db2)
  | .error e => (.error e, db)

/-- The body of the transaction in `apply_revision`: execute the script,
then insert the revision's name into the tracking table; the insert fails
when the table is missing or when the name is already a row (primary-key
violation). -/
def transactionBody (rev : DBRevision) (db : DBState) : Except ApplyError DBState :=
  match executeScript rev.sql_text db with
  | none => .error .scriptError
  | some db2 =>
    match db2.table with
    | none => .error .noSuchTable
    | some rows =>
      if rev.revision_name ∈ rows then .error .duplicateKey
      else .ok ⟨some (insert rev.revision_name rows), db2.data⟩

/-- `DBMigrator.apply_revision`: check the dependency guard against the
in-memory Applied-Set, reflect the tracking table, then run the script and
the bookkeeping insert inside one transaction; on success the in-memory
cache also records the name.  The returned state is the post-call state
(unchanged on every failure, thanks to the rollback). -/
def apply_revision (st : MigratorState) (rev : DBRevision) :
    Except ApplyError Unit × MigratorState :=
  if rev.dependencies ≠ ∅ ∧ ¬ rev.dependencies ⊆ st.applied_revisions then
    (.error (.unmetDependency rev.revision_name rev.dependencies), st)
  else
    match st.db.table with
    | none => (.error .noSuchTable, st)
    | some _ =>
      match runTransaction st.db (transactionBody rev) with
      | (.ok _, db2) => (.ok (), ⟨db2, insert rev.revision_name st.applied_revisions⟩)
      | (.error e, db2) => (.error e, ⟨db2, st.applied_revisions⟩)

/-- C1: with the dependency precondition satisfied and the tracking table
present, `apply_revision` runs the script and the bookkeeping insert as one
transaction: a failing script leaves the whole state unchanged (so the
Applied-Set does not contain the name if it did not before), a failing
insert discards the script's effects, and only when both steps succeed does
the new database state (with the name inserted) and the extended cache
persist. -/
theorem c1_apply_revision_transactional (st : MigratorState) (rev : DBRevision)
    (rows0 : Finset String)
    (hdeps : rev.dependencies ⊆ st.applied_revisions)
    (htab : st.db.table = some rows0)
    (hnew : rev.revision_name ∉ st.applied_revisions) :
    (executeScript rev.sql_text st.db = none →
      apply_revision st rev = (.error .scriptError, st) ∧
      rev.revision_name ∉ (apply_revision st rev).2.applied_revisions) ∧
    (∀ db2, executeScript rev.sql_text st.db = some db2 →
      (db2.table = none → apply_revision st rev = (.error .noSuchTable, st)) ∧
      (∀ rows2, db2.table = some rows2 → rev.revision_name ∈ rows2 →
        apply_revision st rev = (.error .duplicateKey, st))) ∧
    (∀ db2 rows2, executeScript rev.sql_text st.db = some db2 →
      db2.table = some rows2 → rev.revision_name ∉ rows2 →
      apply_revision st rev =
        (.ok (), ⟨⟨some (insert rev.revision_name rows2), db2.data⟩,
                  insert rev.revision_name st.applied_revisions⟩)) := by
  have hguard : ¬ (rev.dependencies ≠ ∅ ∧ ¬ rev.dependencies ⊆ st.applied_revisions) := by
    intro h; exact h.2 hdeps
  refine ⟨?_, ?_, ?_⟩
  · intro hs
    have : apply_revision st rev = (.error .scriptError, st) := by
      simp [apply_revision, hguard, htab, runTransaction, transactionBody, hs]
    exact ⟨this, by rw [this]; exact hnew⟩
  · intro db2 hs
    constructor
    · intro ht2
      simp [apply_revision, hguard, htab, runTransaction, transactionBody, hs, ht2]
    · intro rows2 ht2 hmem
      simp [apply_revision, hguard, htab, runTransaction, transactionBody, hs, ht2, hmem]
  · intro db2 rows2 hs ht2 hmem
    simp [apply_revision, hguard, htab, runTransaction, transactionBody, hs, ht2, hmem]

/-- Witness for C1 at a concrete input: a revision whose script fails leaves
the concrete migrator state untouched. -/
theorem c1_witness :
    apply_revision ⟨⟨some ∅, 0⟩, ∅⟩ ⟨"r1", ∅, some (fun _ => none), true, none⟩ =
      (.error .scriptError, ⟨⟨some ∅, 0⟩, ∅⟩) :=
  ((c1_apply_revision_transactional ⟨⟨some ∅, 0⟩, ∅⟩
      ⟨"r1", ∅, some (fun _ => none), true, none⟩ ∅
      (by decide) rfl (by decide)).1 rfl).1

/-- C4: when a revision has a non-empty dependency set with some member
missing from the in-memory Applied-Set, `apply_revision` fails with the
unmet-dependency error; the reported dependency set contains every missing
prerequisite, and the result is the same for every script and every
database state, so no database interaction takes place. -/
theorem c4_unmet_dependency (st : MigratorState) (rev : DBRevision)
    (hne : rev.dependencies ≠ ∅)
    (hmiss : ¬ rev.dependencies ⊆ st.applied_revisions) :
    apply_revision st rev =
      (.error (.unmetDependency rev.revision_name rev.dependencies), st) ∧
    rev.dependencies \ st.applied_revisions ⊆ rev.dependencies ∧
    (∀ s db, apply_revision ⟨db, st.applied_revisions⟩
        ⟨rev.revision_name, rev.dependencies, s, rev.active, rev.description⟩ =
      (.error (.unmetDependency rev.revision_name rev.dependencies),
       ⟨db, st.applied_revisions⟩)) := by
  refine ⟨?_, Finset.sdiff_subset, ?_⟩
  · simp [apply_revision, hne, hmiss]
  · intro s db
    simp [apply_revision, hne, hmiss]

/-- Witness for C4 at a concrete input: a revision depending on an
unapplied revision is rejected without touching the state. -/
theorem c4_witness :
    apply_revision ⟨⟨some ∅, 0⟩, ∅⟩ ⟨"b", {"a"}, none, true, none⟩ =
      (.error (.unmetDependency "b" {"a"}), ⟨⟨some ∅, 0⟩, ∅⟩) :=
  (c4_unmet_dependency ⟨⟨some ∅, 0⟩, ∅⟩ ⟨"b", {"a"}, none, true, none⟩
    (by decide) (by decide)).1

/-- Counterexample to C6 as stated: re-applying a revision whose name is in
the tracking table and the Applied-Set, with its dependencies met, fails
with the script-execution error — not the duplicate-key error — when the
re-executed script itself fails, because the script runs before the
bookkeeping insert ever reaches the primary key. -/
theorem c6_counterexample :
    "r1" ∈ ({"r1"} : Finset String) ∧
    apply_revision ⟨⟨some {"r1"}, 0⟩, {"r1"}⟩ ⟨"r1", ∅, some (fun _ => none), true, none⟩ =
      (.error .scriptError, ⟨⟨some {"r1"}, 0⟩, {"r1"}⟩) ∧
    ApplyError.scriptError ≠ ApplyError.duplicateKey := by
  refine ⟨by decide, ?_, by decide⟩
  rfl

/-- Every failing `apply_revision` call leaves the migrator state exactly
as it was: the guard and the reflection fail before the transaction, and
inside the transaction the rollback discards the body's effects. -/
theorem apply_revision_error_rollback (st : MigratorState) (rev : DBRevision) :
    ∀ e, (apply_revision st rev).1 = .error e → (apply_revision st rev).2 = st := by
  intro e h
  by_cases hguard : rev.dependencies ≠ ∅ ∧ ¬ rev.dependencies ⊆ st.applied_revisions
  · simp [apply_revision, hguard]
  · cases htab : st.db.table with
    | none => simp [apply_revision, hguard, htab]
    | some rows =>
      cases hbody : transactionBody rev st.db with
      | ok db2 =>
        simp [apply_revision, hguard, htab, runTransaction, hbody] at h
      | error e2 =>
        simp [apply_revision, hguard, htab, runTransaction, hbody]

/-- C6 (amended): re-invoking `apply_revision` on a revision whose name is
already recorded, with its dependencies met, fails with the duplicate-key
error of the primary-key constraint and leaves the database and the
Applied-Set unchanged, provided the re-executed script succeeds and leaves
the revision's row in the tracking table; when the script itself fails on
re-execution the error is the script-execution error, and when the script
succeeds but drops the tracking table the error is the missing-table
error.  Every one of these failures leaves the state unchanged (the final
conjunct); only a script that itself removes the revision's row can make
the re-invocation succeed. -/
theorem c6_duplicate_application (st : MigratorState) (rev : DBRevision)
    (rows0 : Finset String)
    (htab : st.db.table = some rows0)
    (hrow : rev.revision_name ∈ rows0)
    (hcache : rev.revision_name ∈ st.applied_revisions)
    (hdeps : rev.dependencies ⊆ st.applied_revisions) :
    (executeScript rev.sql_text st.db = none →
      apply_revision st rev = (.error .scriptError, st)) ∧
    (∀ db2 rows2, executeScript rev.sql_text st.db = some db2 →
      db2.table = some rows2 → rev.revision_name ∈ rows2 →
      apply_revision st rev = (.error .duplicateKey, st)) ∧
    (∀ db2, executeScript rev.sql_text st.db = some db2 → db2.table = none →
      apply_revision st rev = (.error .noSuchTable, st)) ∧
    (∀ e, (apply_revision st rev).1 = .error e → (apply_revision st rev).2 = st) := by
  have hguard : ¬ (rev.dependencies ≠ ∅ ∧ ¬ rev.dependencies ⊆ st.applied_revisions) := by
    intro h; exact h.2 hdeps
  refine ⟨?_, ?_, ?_, apply_revision_error_rollback st rev⟩
  · intro hs
    simp [apply_revision, hguard, htab, runTransaction, transactionBody, hs]
  · intro db2 rows2 hs ht2 hmem
    simp [apply_revision, hguard, htab, runTransaction, transactionBody, hs, ht2, hmem]
  · intro db2 hs ht2
    simp [apply_revision, hguard, htab, runTransaction, transactionBody, hs, ht2]

/-- Witness for the amended C6: a concrete duplicate application whose
script succeeds fails with the duplicate-key error and changes nothing. -/
theorem c6_witness :
    apply_revision ⟨⟨some {"r1"}, 0⟩, {"r1"}⟩ ⟨"r1", ∅, some (fun db => some db), true, none⟩ =
      (.error .duplicateKey, ⟨⟨some {"r1"}, 0⟩, {"r1"}⟩) :=
  (c6_duplicate_application ⟨⟨some {"r1"}, 0⟩, {"r1"}⟩
      ⟨"r1", ∅, some (fun db => some db), true, none⟩ {"r1"}
      rfl (by decide) (by decide) (by decide)).2.1
    ⟨some {"r1"}, 0⟩ {"r1"} rfl rfl (by decide)

/-- The dictionary `load_revisions()` returns: the set of loaded revision
names together with the lookup function of the underlying Python `dict`. -/
structure RevisionMap where
  keys : Finset String
  find : String → Option DBRevision

/-- `revisions[n].dependencies` — the dependency set the layering loop reads
for a name of the working set (the loop only ever looks up present keys,
so the `none` branch is inert). -/
def revisionDeps (m : RevisionMap) (n : String) : Finset String :=
  match m.find n with
  | some r => r.dependencies
  | none => ∅

/-- One pass of the `while` loop in `build_revision_layers`: the revisions
of the working set whose dependencies are all satisfied and which are not
themselves already satisfied. -/
def newLayer (m : RevisionMap) (flat W : Finset String) : Finset String :=
  W.filter (fun n => revisionDeps m n ⊆ flat ∧ n ∉ flat)

/-- The `while` loop of `build_revision_layers`, iterating on the satisfied
set `flat` and working set `W`.  `fuel` bounds the iteration count; since a
pass that does not break removes a non-empty layer from `W`, `W.card + 1`
iterations always reach one of the two `break`s. -/
def buildLoopAux (m : RevisionMap) :
    Nat → Finset String → Finset String → List (Finset String) × Finset String
  | 0, _, W => ([], W)
  | fuel + 1, flat, W =>
    if newLayer m flat W = ∅ then ([], W)
    else if W \ newLayer m flat W = ∅ then ([newLayer m flat W], W \ newLayer m flat W)
    else
      (newLayer m flat W ::
        (buildLoopAux m fuel (flat ∪ newLayer m flat W) (W \ newLayer m flat W)).1,
       (buildLoopAux m fuel (flat ∪ newLayer m flat W) (W \ newLayer m flat W)).2)

/-- The layering loop with enough fuel to run to its natural break: returns
the layers produced and the still-unresolved part of the working set. -/
def buildLoop (m : RevisionMap) (flat W : Finset String) :
    List (Finset String) × Finset String :=
  buildLoopAux m (W.card + 1) flat W

/-- `DBMigrator.build_revision_layers`: starting from the applied revisions
as the satisfied set, the working set is every loaded revision not already
applied; the applied set itself is layer 0 when `include_applied`; with
`require_all`, a non-empty residue raises, reporting exactly the unresolved
names. -/
def build_revision_layers (m : RevisionMap) (applied_revisions : Finset String)
    (require_all include_applied : Bool) :
    Except (Finset String) (List (Finset String)) :=
  if require_all = true ∧
      (buildLoop m applied_revisions (m.keys \ applied_revisions)).2 ≠ ∅ then
    .error (buildLoop m applied_revisions (m.keys \ applied_revisions)).2
  else
    .ok ((if include_applied = true then [applied_revisions] else []) ++
         (buildLoop m applied_revisions (m.keys \ applied_revisions)).1)

/-- The to-do layers `build_revision_layers` computes (its output without
the optional applied layer 0). -/
def todoLayers (m : RevisionMap) (applied : Finset String) : List (Finset String) :=
  (buildLoop m applied (m.keys \ applied)).1

/-- The revisions still in the working set when the layering loop stops:
exactly the names an exception under `require_all` reports. -/
def unresolvedRevisions (m : RevisionMap) (applied : Finset String) : Finset String :=
  (buildLoop m applied (m.keys \ applied)).2

/-- A layer list is dependency-ordered from `flat`: each layer's members
have all their dependencies inside `flat` extended with the earlier
layers. -/
def chainOK (m : RevisionMap) : Finset String → List (Finset String) → Prop
  | _, [] => True
  | flat, L :: ls => (∀ n ∈ L, revisionDeps m n ⊆ flat) ∧ chainOK m (flat ∪ L) ls

theorem newLayer_subset (m : RevisionMap) (flat W : Finset String) :
    newLayer m flat W ⊆ W :=
  Finset.filter_subset _ _

theorem buildLoopAux_layers_subset (m : RevisionMap) (fuel : Nat) :
    ∀ flat W : Finset String, ∀ L ∈ (buildLoopAux m fuel flat W).1, L ⊆ W := by
  induction fuel with
  | zero => intro flat W L hL; simp [buildLoopAux] at hL
  | succ fuel ih =>
    intro flat W L hL
    by_cases h1 : newLayer m flat W = ∅
    · simp [buildLoopAux, h1] at hL
    · by_cases h2 : W \ newLayer m flat W = ∅
      · simp [buildLoopAux, h1, h2] at hL
        exact hL ▸ newLayer_subset m flat W
      · simp [buildLoopAux, h1, h2] at hL
        rcases hL with hL | hL
        · exact hL ▸ newLayer_subset m flat W
        · exact (ih _ _ L hL).trans (Finset.sdiff_subset)

theorem buildLoopAux_rem_subset (m : RevisionMap) (fuel : Nat) :
    ∀ flat W : Finset String, (buildLoopAux m fuel flat W).2 ⊆ W := by
  induction fuel with
  | zero => intro flat W; simp [buildLoopAux]
  | succ fuel ih =>
    intro flat W
    by_cases h1 : newLayer m flat W = ∅
    · simp [buildLoopAux, h1]
    · by_cases h2 : W \ newLayer m flat W = ∅
      · simp [buildLoopAux, h1, h2]
      · simp only [buildLoopAux, if_neg h1, if_neg h2]
        exact (ih _ _).trans (Finset.sdiff_subset)

theorem buildLoopAux_chainOK (m : RevisionMap) (fuel : Nat) :
    ∀ flat W : Finset String, chainOK m flat (buildLoopAux m fuel flat W).1 := by
  induction fuel with
  | zero => intro flat W; simp [buildLoopAux, chainOK]
  | succ fuel ih =>
    intro flat W
    by_cases h1 : newLayer m flat W = ∅
    · simp [buildLoopAux, h1, chainOK]
    · by_cases h2 : W \ newLayer m flat W = ∅
      · simp only [buildLoopAux, if_neg h1, if_pos h2]
        refine ⟨?_, trivial⟩
        intro n hn
        exact (Finset.mem_filter.mp hn).2.1
      · simp only [buildLoopAux, if_neg h1, if_neg h2]
        refine ⟨?_, ih _ _⟩
        intro n hn
        exact (Finset.mem_filter.mp hn).2.1

theorem countP_eq_zero_of_subsets {X : Finset String} {ls : List (Finset String)}
    (hsub : ∀ L ∈ ls, L ⊆ X) {n : String} (hn : n ∉ X) :
    ls.countP (fun L => decide (n ∈ L)) = 0 := by
  apply List.countP_eq_zero.mpr
  intro L hL
  simp only [decide_eq_true_eq]
  intro hmem
  exact hn (hsub L hL hmem)

theorem buildLoopAux_mem_rem_iff (m : RevisionMap) (fuel : Nat) :
    ∀ flat W n, n ∈ W →
      (n ∈ (buildLoopAux m fuel flat W).2 ↔
        ∀ L ∈ (buildLoopAux m fuel flat W).1, n ∉ L) := by
  induction fuel with
  | zero => intro flat W n hn; simp [buildLoopAux, hn]
  | succ fuel ih =>
    intro flat W n hn
    by_cases h1 : newLayer m flat W = ∅
    · simp [buildLoopAux, h1, hn]
    · by_cases h2 : W \ newLayer m flat W = ∅
      · have hmem : n ∈ newLayer m flat W := by
          by_contra hno
          have : n ∈ W \ newLayer m flat W := Finset.mem_sdiff.mpr ⟨hn, hno⟩
          simp [h2] at this
        simp [buildLoopAux, h1, h2, hmem]
      · simp only [buildLoopAux, if_neg h1, if_neg h2]
        by_cases hmem : n ∈ newLayer m flat W
        · have hrem : n ∉ (buildLoopAux m fuel (flat ∪ newLayer m flat W)
              (W \ newLayer m flat W)).2 := by
            intro hc
            have := buildLoopAux_rem_subset m fuel (flat ∪ newLayer m flat W)
              (W \ newLayer m flat W) hc
            exact (Finset.mem_sdiff.mp this).2 hmem
          simp [hrem, hmem]
        · have hn2 : n ∈ W \ newLayer m flat W := Finset.mem_sdiff.mpr ⟨hn, hmem⟩
          have := ih (flat ∪ newLayer m flat W) (W \ newLayer m flat W) n hn2
          simp [this, hmem]

theorem buildLoopAux_countP_one (m : RevisionMap) (fuel : Nat) :
    ∀ flat W n, n ∈ W → (buildLoopAux m fuel flat W).2 = ∅ →
      (buildLoopAux m fuel flat W).1.countP (fun L => decide (n ∈ L)) = 1 := by
  induction fuel with
  | zero =>
    intro flat W n hn hrem
    simp only [buildLoopAux] at hrem
    simp [hrem] at hn
  | succ fuel ih =>
    intro flat W n hn hrem
    by_cases h1 : newLayer m flat W = ∅
    · simp only [buildLoopAux, if_pos h1] at hrem
      simp [hrem] at hn
    · by_cases h2 : W \ newLayer m flat W = ∅
      · have hmem : n ∈ newLayer m flat W := by
          by_contra hno
          have : n ∈ W \ newLayer m flat W := Finset.mem_sdiff.mpr ⟨hn, hno⟩
          simp [h2] at this
        simp [buildLoopAux, h1, h2, List.countP_cons, hmem]
      · simp only [buildLoopAux, if_neg h1, if_neg h2] at hrem ⊢
        by_cases hmem : n ∈ newLayer m flat W
        · have hz : (buildLoopAux m fuel (flat ∪ newLayer m flat W)
              (W \ newLayer m flat W)).1.countP (fun L => decide (n ∈ L)) = 0 := by
            refine countP_eq_zero_of_subsets
              (fun L hL => buildLoopAux_layers_subset m fuel _ _ L hL) ?_
            intro hc
            exact (Finset.mem_sdiff.mp hc).2 hmem
          simp [List.countP_cons, hmem, hz]
        · have hn2 : n ∈ W \ newLayer m flat W := Finset.mem_sdiff.mpr ⟨hn, hmem⟩
          have := ih (flat ∪ newLayer m flat W) (W \ newLayer m flat W) n hn2 hrem
          simp [List.countP_cons, hmem, this]

theorem buildLoopAux_rem_empty (m : RevisionMap) (fuel : Nat) :
    ∀ flat W, W.card < fuel →
      (∀ n ∈ W, revisionDeps m n ⊆ flat ∪ W) →
      (∀ S ⊆ W, S.Nonempty → ∃ n ∈ S, ∀ d ∈ revisionDeps m n, d ∉ S) →
      (∀ n ∈ W, n ∉ flat) →
      (buildLoopAux m fuel flat W).2 = ∅ := by
  induction fuel with
  | zero => intro flat W hcard; omega
  | succ fuel ih =>
    intro flat W hcard hclosed hacyc hdisj
    by_cases hW : W = ∅
    · subst hW
      have h1 : newLayer m flat (∅ : Finset String) = ∅ := by
        simp [newLayer]
      simp [buildLoopAux, h1]
    · have hWne : W.Nonempty := Finset.nonempty_iff_ne_empty.mpr hW
      obtain ⟨n0, hn0W, hn0⟩ := hacyc W (le_refl W) hWne
      have hdepsflat : revisionDeps m n0 ⊆ flat := by
        intro d hd
        rcases Finset.mem_union.mp (hclosed n0 hn0W hd) with h | h
        · exact h
        · exact absurd h (hn0 d hd)
      have hn0nl : n0 ∈ newLayer m flat W :=
        Finset.mem_filter.mpr ⟨hn0W, hdepsflat, hdisj n0 hn0W⟩
      have h1 : newLayer m flat W ≠ ∅ := by
        intro hc; rw [hc] at hn0nl; exact absurd hn0nl (Finset.not_mem_empty n0)
      by_cases h2 : W \ newLayer m flat W = ∅
      · simp [buildLoopAux, h1, h2]
      · simp only [buildLoopAux, if_neg h1, if_neg h2]
        have hssub : W \ newLayer m flat W ⊂ W :=
          Finset.sdiff_ssubset (newLayer_subset m flat W) ⟨n0, hn0nl⟩
        have hcard2 : (W \ newLayer m flat W).card < fuel := by
          have := Finset.card_lt_card hssub
          omega
        apply ih (flat ∪ newLayer m flat W) (W \ newLayer m flat W) hcard2
        · intro n hn d hd
          have hnW : n ∈ W := (Finset.mem_sdiff.mp hn).1
          rcases Finset.mem_union.mp (hclosed n hnW hd) with h | h
          · exact Finset.mem_union_left _ (Finset.mem_union_left _ h)
          · by_cases hdl : d ∈ newLayer m flat W
            · exact Finset.mem_union_left _ (Finset.mem_union_right _ hdl)
            · exact Finset.mem_union_right _ (Finset.mem_sdiff.mpr ⟨h, hdl⟩)
        · intro S hS hSne
          exact hacyc S (hS.trans Finset.sdiff_subset) hSne
        · intro n hn
          have hnW : n ∈ W := (Finset.mem_sdiff.mp hn).1
          intro hc
          rcases Finset.mem_union.mp hc with h | h
          · exact hdisj n hnW h
          · exact (Finset.mem_sdiff.mp hn).2 h

theorem chainOK_deps (m : RevisionMap) :
    ∀ (ls : List (Finset String)) (flat : Finset String), chainOK m flat ls →
      ∀ i n, i < ls.length → n ∈ ls.getD i ∅ →
        ∀ d ∈ revisionDeps m n, d ∈ flat ∨ ∃ j, j < i ∧ d ∈ ls.getD j ∅ := by
  intro ls
  induction ls with
  | nil => intro flat _ i n hi; simp at hi
  | cons L ls ih =>
    intro flat hchain i n hi hn d hd
    cases i with
    | zero =>
      exact Or.inl (hchain.1 n (by simpa using hn) hd)
    | succ i =>
      have hi' : i < ls.length := by simpa using hi
      have hn' : n ∈ ls.getD i ∅ := by simpa using hn
      rcases ih (flat ∪ L) hchain.2 i n hi' hn' d hd with h | ⟨j, hj, hdj⟩
      · rcases Finset.mem_union.mp h with h | h
        · exact Or.inl h
        · exact Or.inr ⟨0, Nat.succ_pos i, by simpa using h⟩
      · exact Or.inr ⟨j + 1, Nat.succ_lt_succ hj, by simpa using hdj⟩

/-- The loaded revisions have no dependency cycle: every non-empty set of
loaded names contains a revision none of whose dependencies lies back in
that set (for a finite graph this is exactly acyclicity). -/
def Acyclic (m : RevisionMap) : Prop :=
  ∀ S ⊆ m.keys, S.Nonempty → ∃ n ∈ S, ∀ d ∈ revisionDeps m n, d ∉ S

/-- Every dependency of a loaded revision is itself loaded or already
applied (no dangling dependency names). -/
def DepsClosed (m : RevisionMap) (applied : Finset String) : Prop :=
  ∀ n ∈ m.keys, revisionDeps m n ⊆ m.keys ∪ applied

/-- C2 (amended): when the loaded revisions are acyclic AND have no
dangling dependencies (each dependency loaded or applied),
`build_revision_layers` succeeds, every loaded revision not already
applied appears in exactly one output layer, and each of its dependencies
lies in the applied set or in a strictly earlier output layer. -/
theorem c2_layering_complete (m : RevisionMap) (applied : Finset String)
    (require_all include_applied : Bool)
    (hclosed : DepsClosed m applied) (hacyc : Acyclic m) :
    ∃ ls, build_revision_layers m applied require_all include_applied = .ok ls ∧
      (∀ n ∈ m.keys, n ∉ applied → ls.countP (fun L => decide (n ∈ L)) = 1) ∧
      (∀ i n, i < ls.length → n ∈ ls.getD i ∅ → n ∉ applied →
        ∀ d ∈ revisionDeps m n, d ∈ applied ∨ ∃ j, j < i ∧ d ∈ ls.getD j ∅) := by
  have hrem : (buildLoop m applied (m.keys \ applied)).2 = ∅ := by
    apply buildLoopAux_rem_empty m _ applied (m.keys \ applied) (Nat.lt_succ_self _)
    · intro n hn d hd
      have h := hclosed n (Finset.mem_sdiff.mp hn).1 hd
      rw [Finset.union_sdiff_self_eq_union, Finset.union_comm]
      exact h
    · intro S hS hSne
      exact hacyc S (hS.trans Finset.sdiff_subset) hSne
    · intro n hn
      exact (Finset.mem_sdiff.mp hn).2
  refine ⟨(if include_applied = true then [applied] else []) ++
      (buildLoop m applied (m.keys \ applied)).1, ?_, ?_, ?_⟩
  · simp [build_revision_layers, hrem]
  · intro n hn hnap
    have hnW : n ∈ m.keys \ applied := Finset.mem_sdiff.mpr ⟨hn, hnap⟩
    have hone : (buildLoop m applied (m.keys \ applied)).1.countP
        (fun L => decide (n ∈ L)) = 1 :=
      buildLoopAux_countP_one m _ applied (m.keys \ applied) n hnW hrem
    cases include_applied with
    | false => simpa using hone
    | true => simp [List.countP_cons, hnap, hone]
  · have hchain : chainOK m applied (buildLoop m applied (m.keys \ applied)).1 :=
      buildLoopAux_chainOK m _ applied (m.keys \ applied)
    intro i n hi hn hnap d hd
    cases include_applied with
    | false =>
      simp only [if_neg (by decide : ¬ (false = true)), List.nil_append] at hi hn ⊢
      exact chainOK_deps m _ applied hchain i n hi hn d hd
    | true =>
      simp only [if_pos rfl, List.cons_append, List.nil_append] at hi hn ⊢
      cases i with
      | zero => exact absurd (by simpa using hn) hnap
      | succ i =>
        have hi' : i < (buildLoop m applied (m.keys \ applied)).1.length := by
          simpa using hi
        have hn' : n ∈ (buildLoop m applied (m.keys \ applied)).1.getD i ∅ := by
          simpa using hn
        rcases chainOK_deps m _ applied hchain i n hi' hn' d hd with h | ⟨j, hj, hdj⟩
        · exact Or.inl h
        · exact Or.inr ⟨j + 1, Nat.succ_lt_succ hj, by simpa using hdj⟩

/-- A mapping with one revision that depends on a name that is neither
loaded nor applied: acyclic, yet the revision resolves into no layer. -/
def c2cexMap : RevisionMap :=
  ⟨{"a"}, fun n => if n = "a" then some ⟨"a", {"x"}, none, true, none⟩ else none⟩

/-- Counterexample to C2 as stated: the mapping `c2cexMap` has no
dependency cycle, yet `build_revision_layers` resolves its unapplied
revision `a` into no output layer at all (its dependency `x` is dangling),
so "every revision of the mapping that is not already applied appears in
exactly one output layer" fails. -/
theorem c2_counterexample :
    Acyclic c2cexMap ∧
    build_revision_layers c2cexMap ∅ false false = .ok [] ∧
    "a" ∈ c2cexMap.keys ∧ "a" ∉ (∅ : Finset String) ∧
    ([] : List (Finset String)).countP (fun L => decide ("a" ∈ L)) = 0 := by
  refine ⟨?_, by rfl, by decide, by decide, by rfl⟩
  intro S hS hSne
  rcases Finset.subset_singleton_iff.mp hS with h | h
  · subst h; exact absurd hSne (by simp)
  · subst h
    refine ⟨"a", by decide, ?_⟩
    intro d hd
    have hx : d = "x" := by
      simp only [revisionDeps, c2cexMap, if_pos rfl] at hd
      simpa using hd
    subst hx
    decide

/-- A one-revision mapping with no dependencies at all. -/
def c2okMap : RevisionMap :=
  ⟨{"a"}, fun n => if n = "a" then some ⟨"a", ∅, none, true, none⟩ else none⟩

/-- Witness for the amended C2 at a concrete input. -/
theorem c2_witness :
    ∃ ls, build_revision_layers c2okMap ∅ true false = .ok ls ∧
      (∀ n ∈ c2okMap.keys, n ∉ (∅ : Finset String) →
        ls.countP (fun L => decide (n ∈ L)) = 1) ∧
      (∀ i n, i < ls.length → n ∈ ls.getD i ∅ → n ∉ (∅ : Finset String) →
        ∀ d ∈ revisionDeps c2okMap n,
          d ∈ (∅ : Finset String) ∨ ∃ j, j < i ∧ d ∈ ls.getD j ∅) := by
  apply c2_layering_complete c2okMap ∅ true false
  · intro n hn
    have ha : n = "a" := by simpa [c2okMap] using hn
    subst ha
    intro d hd
    simp [revisionDeps, c2okMap] at hd
  · intro S hS hSne
    rcases Finset.subset_singleton_iff.mp hS with h | h
    · subst h; exact absurd hSne (by simp)
    · subst h
      refine ⟨"a", by decide, ?_⟩
      intro d hd
      simp [revisionDeps, c2okMap] at hd

/-- C3: `build_revision_layers` raises exactly when `require_all` holds and
revisions remain unresolved when layering stops; the raised error carries
the name of every unresolved revision (those loaded, unapplied names in no
produced layer); with `require_all` false, the partial layering is returned
silently. -/
theorem c3_require_all_error (m : RevisionMap) (applied : Finset String)
    (require_all include_applied : Bool) (E : Finset String) :
    (build_revision_layers m applied require_all include_applied = .error E ↔
      (require_all = true ∧ E = unresolvedRevisions m applied ∧
        unresolvedRevisions m applied ≠ ∅)) ∧
    (∀ n, n ∈ unresolvedRevisions m applied ↔
      (n ∈ m.keys ∧ n ∉ applied ∧ ∀ L ∈ todoLayers m applied, n ∉ L)) ∧
    (require_all = false →
      build_revision_layers m applied require_all include_applied =
        .ok ((if include_applied = true then [applied] else []) ++
             todoLayers m applied)) := by
  refine ⟨?_, ?_, ?_⟩
  · by_cases hc : require_all = true ∧
        (buildLoop m applied (m.keys \ applied)).2 ≠ ∅
    · constructor
      · intro h
        rw [build_revision_layers, if_pos hc] at h
        exact ⟨hc.1, (Except.error.injEq _ _).mp h.symm, hc.2⟩
      · intro ⟨h1, h2, h3⟩
        rw [build_revision_layers, if_pos hc, h2]
        rfl
    · constructor
      · intro h
        rw [build_revision_layers, if_neg hc] at h
        exact absurd h (by simp)
      · intro ⟨h1, h2, h3⟩
        exact absurd ⟨h1, h3⟩ hc
  · intro n
    constructor
    · intro hn
      have hnW : n ∈ m.keys \ applied :=
        buildLoopAux_rem_subset m _ applied (m.keys \ applied) hn
      refine ⟨(Finset.mem_sdiff.mp hnW).1, (Finset.mem_sdiff.mp hnW).2, ?_⟩
      exact (buildLoopAux_mem_rem_iff m _ applied (m.keys \ applied) n hnW).mp hn
    · intro ⟨h1, h2, h3⟩
      have hnW : n ∈ m.keys \ applied := Finset.mem_sdiff.mpr ⟨h1, h2⟩
      exact (buildLoopAux_mem_rem_iff m _ applied (m.keys \ applied) n hnW).mpr h3
  · intro hra
    subst hra
    rw [build_revision_layers, if_neg (by simp)]
    rfl

/-- A two-revision cycle: `e` depends on `f` and `f` on `e`. -/
def c3cycleMap : RevisionMap :=
  ⟨{"e", "f"}, fun n =>
    if n = "e" then some ⟨"e", {"f"}, none, true, none⟩
    else if n = "f" then some ⟨"f", {"e"}, none, true, none⟩ else none⟩

/-- Witness for C3: on a two-cycle with `require_all`, the layering raises
and the error names both members of the cycle. -/
theorem c3_witness :
    build_revision_layers c3cycleMap ∅ true false = .error {"e", "f"} :=
  (c3_require_all_error c3cycleMap ∅ true false {"e", "f"}).1.mpr
    ⟨rfl, by rfl, by decide⟩

/-- C5: with `include_applied` true, the first output layer is exactly the
applied set; and under either flag, no already-applied revision occurs in
any to-do layer of the output. -/
theorem c5_applied_first_layer (m : RevisionMap) (applied : Finset String)
    (require_all : Bool) :
    (∀ ls, build_revision_layers m applied require_all true = .ok ls →
      ∃ t, ls = applied :: t ∧ ∀ L ∈ t, ∀ n ∈ L, n ∉ applied) ∧
    (∀ ls, build_revision_layers m applied require_all false = .ok ls →
      ∀ L ∈ ls, ∀ n ∈ L, n ∉ applied) := by
  have hmem : ∀ L ∈ (buildLoop m applied (m.keys \ applied)).1,
      ∀ n ∈ L, n ∉ applied := by
    intro L hL n hn
    have := buildLoopAux_layers_subset m _ applied (m.keys \ applied) L hL hn
    exact (Finset.mem_sdiff.mp this).2
  constructor
  · intro ls hok
    by_cases hc : require_all = true ∧
        (buildLoop m applied (m.keys \ applied)).2 ≠ ∅
    · rw [build_revision_layers, if_pos hc] at hok
      exact absurd hok (by simp)
    · rw [build_revision_layers, if_neg hc] at hok
      have hls : applied :: (buildLoop m applied (m.keys \ applied)).1 = ls := by
        simpa using hok
      exact ⟨(buildLoop m applied (m.keys \ applied)).1, hls.symm, hmem⟩
  · intro ls hok
    by_cases hc : require_all = true ∧
        (buildLoop m applied (m.keys \ applied)).2 ≠ ∅
    · rw [build_revision_layers, if_pos hc] at hok
      exact absurd hok (by simp)
    · rw [build_revision_layers, if_neg hc] at hok
      have hls : (buildLoop m applied (m.keys \ applied)).1 = ls := by
        simpa using hok
      exact hls ▸ hmem

/-- Revisions `a` (no dependencies, applied) and `b` (depends on `a`). -/
def c5Map : RevisionMap :=
  ⟨{"a", "b"}, fun n =>
    if n = "a" then some ⟨"a", ∅, none, true, none⟩
    else if n = "b" then some ⟨"b", {"a"}, none, true, none⟩ else none⟩

/-- Witness for C5: with `a` applied and `include_applied`, layer 0 is the
applied set and later layers avoid it. -/
theorem c5_witness :
    ∃ t, ([{"a"}, {"b"}] : List (Finset String)) = {"a"} :: t ∧
      ∀ L ∈ t, ∀ n ∈ L, n ∉ ({"a"} : Finset String) :=
  (c5_applied_first_layer c5Map {"a"} true).1 [{"a"}, {"b"}] (by rfl)

/-- What the `try` block of `get_applied_revisions` can produce: a
successful read of the tracking-table rows, the reflection failing with
`NoSuchTableError`, or any other database error (connectivity,
permission). -/
inductive ReadOutcome where
  | rows (results : List String)
  | noSuchTable
  | otherError (e : String)

/-- `DBMigrator.get_applied_revisions`: the `except NoSuchTableError`
branch replaces the results with the empty list; every other error
propagates; the rows are collected into a set. -/
def get_applied_revisions (outcome : ReadOutcome) : Except String (Finset String) :=
  match outcome with
  | .rows revision_results => .ok revision_results.toFinset
  | .noSuchTable => .ok ([] : List String).toFinset
  | .otherError e => .error e

/-- C8: when the tracking table does not exist, `get_applied_revisions`
returns the empty set instead of failing; any other read failure
propagates; a successful read yields the rows as a set. -/
theorem c8_missing_table_empty_set :
    get_applied_revisions .noSuchTable = .ok ∅ ∧
    (∀ e, get_applied_revisions (.otherError e) = .error e) ∧
    (∀ results, get_applied_revisions (.rows results) = .ok results.toFinset) := by
  exact ⟨rfl, fun e => rfl, fun results => rfl⟩

/-- The deterministic target location of a revision file:
`self.migrations / f"{revision_name}.yaml"`. -/
def revisionFilePath (migrations revision_name : String) : String :=
  migrations ++ "/" ++ revision_name ++ ".yaml"

/-- The revisions directory as a file system of path/content pairs. -/
def fsLookup (fs : List (String × DBRevision)) (path : String) : Option DBRevision :=
  (fs.find? (fun e => e.1 == path)).map (fun e => e.2)

/-- Opening a path in mode `"w"` and dumping content: the write always
succeeds and truncates whatever was at the path before. -/
def fsWrite (fs : List (String × DBRevision)) (path : String) (content : DBRevision) :
    List (String × DBRevision) :=
  (path, content) :: fs.filter (fun e => !(e.1 == path))

/-- `DBMigrator.create_new_revision`: build the yaml template (optionally
with a description), then open the derived path in write mode and dump it.
The code has no failure path of its own, so the only outcome is `ok`. -/
def create_new_revision (fs : List (String × DBRevision)) (migrations revision_name : String)
    (dependencies : Option (Finset String)) (description : Option String) :
    Except Unit (List (String × DBRevision) × DBRevision) :=
  match description with
  | none =>
    .ok (fsWrite fs (revisionFilePath migrations revision_name)
          (DBRevision.yaml_template revision_name
            (match dependencies with | none => ∅ | some ds => ds)),
         DBRevision.yaml_template revision_name
           (match dependencies with | none => ∅ | some ds => ds))
  | some d =>
    .ok (fsWrite fs (revisionFilePath migrations revision_name)
          ⟨revision_name, (match dependencies with | none => ∅ | some ds => ds),
           none, true, some d⟩,
         ⟨revision_name, (match dependencies with | none => ∅ | some ds => ds),
          none, true, some d⟩)

theorem fsLookup_fsWrite (fs : List (String × DBRevision)) (path : String)
    (content : DBRevision) :
    fsLookup (fsWrite fs path content) path = some content := by
  rw [fsWrite, fsLookup, List.find?_cons_of_pos _ (by simp)]
  rfl

/-- Counterexample to C7 as stated: a revision file named `r1` already
exists at the deterministic target location, yet `create_new_revision`
returns `ok` — it does not fail — and the old file's content is replaced
by the fresh template. -/
theorem c7_counterexample :
    fsLookup [(revisionFilePath "revisions" "r1", ⟨"r1", ∅, none, false, none⟩)]
        (revisionFilePath "revisions" "r1") = some ⟨"r1", ∅, none, false, none⟩ ∧
    create_new_revision
        [(revisionFilePath "revisions" "r1", ⟨"r1", ∅, none, false, none⟩)]
        "revisions" "r1" none none =
      .ok ([(revisionFilePath "revisions" "r1", ⟨"r1", ∅, none, true, none⟩)],
           ⟨"r1", ∅, none, true, none⟩) ∧
    (⟨"r1", ∅, none, true, none⟩ : DBRevision) ≠ ⟨"r1", ∅, none, false, none⟩ := by
  refine ⟨rfl, rfl, ?_⟩
  intro h
  injection h with h1 h2 h3 h4 h5
  simp at h4

/-- C7 (amended): `create_new_revision` never checks for an existing file:
it always succeeds, writing the fresh template at the deterministic path
derived from the name and silently overwriting any revision file already
there. -/
theorem c7_silent_overwrite (fs : List (String × DBRevision))
    (migrations revision_name : String) (dependencies : Option (Finset String))
    (description : Option String) :
    ∃ fs2 tmpl,
      create_new_revision fs migrations revision_name dependencies description =
        .ok (fs2, tmpl) ∧
      tmpl.revision_name = revision_name ∧
      fsLookup fs2 (revisionFilePath migrations revision_name) = some tmpl := by
  cases description with
  | none =>
    exact ⟨_, _, rfl, rfl, fsLookup_fsWrite fs _ _⟩
  | some d =>
    exact ⟨_, _, rfl, rfl, fsLookup_fsWrite fs _ _⟩

/-- The errors of `get_revision_dependencies`: a failing dictionary lookup
(`KeyError`), or exhaustion of the iteration bound, which models the
divergence of the unguarded loop on cyclic dependency graphs. -/
inductive DepLookupError where
  | keyError
  | outOfFuel
deriving DecidableEq

/-- The inner `for` loop of `get_revision_dependencies`: the union of
`revisions[rev].dependencies` over the innermost layer; a missing key
raises `KeyError`. -/
def dependenciesUnion (revisions : String → Option DBRevision) (layer : Finset String) :
    Except DepLookupError (Finset String) :=
  if ∀ r ∈ layer, (revisions r).isSome then
    .ok (layer.biUnion (fun r =>
      match revisions r with
      | some rev => rev.dependencies
      | none => ∅))
  else .error .keyError

/-- The `while` loop of `get_revision_dependencies`.  The accumulator holds
the already-final layers innermost-first, so consing the current layer onto
it on exit performs the `reverse()` of the Python code. -/
def get_revision_dependencies_loop (revisions : String → Option DBRevision) :
    Nat → List (Finset String) → Finset String →
      Except DepLookupError (List (Finset String))
  | 0, _, _ => .error .outOfFuel
  | fuel + 1, acc, last =>
    match dependenciesUnion revisions last with
    | .error e => .error e
    | .ok new_layer =>
      if new_layer = ∅ then .ok (last :: acc)
      else get_revision_dependencies_loop revisions fuel (last :: acc) new_layer

/-- `DBMigrator.get_revision_dependencies`: starting from the singleton of
the target name, iterate the dependency union until it is empty. -/
def get_revision_dependencies (revisions : String → Option DBRevision) (fuel : Nat)
    (revision_name : String) : Except DepLookupError (List (Finset String)) :=
  get_revision_dependencies_loop revisions fuel [] {revision_name}

/-- The output layers are linked by the dependency union: each layer is the
union of the dependencies of the next-inner layer. -/
def unionChain (revisions : String → Option DBRevision)
    (ls : List (Finset String)) : Prop :=
  ∀ i, i + 1 < ls.length →
    dependenciesUnion revisions (ls.getD (i + 1) ∅) = .ok (ls.getD i ∅)

theorem dependenciesUnion_ok_isSome {revisions : String → Option DBRevision}
    {layer u : Finset String} (h : dependenciesUnion revisions layer = .ok u) :
    ∀ r ∈ layer, (revisions r).isSome := by
  by_cases hc : ∀ r ∈ layer, (revisions r).isSome
  · exact hc
  · rw [dependenciesUnion, if_neg hc] at h
    exact absurd h (by simp)

theorem get_revision_dependencies_loop_ok (revisions : String → Option DBRevision) :
    ∀ (fuel : Nat) (acc : List (Finset String)) (last : Finset String)
      (ls : List (Finset String)),
      unionChain revisions (last :: acc) →
      get_revision_dependencies_loop revisions fuel acc last = .ok ls →
      ls ≠ [] ∧ ls.getLast? = (last :: acc).getLast? ∧ unionChain revisions ls ∧
        dependenciesUnion revisions (ls.getD 0 ∅) = .ok ∅ := by
  intro fuel
  induction fuel with
  | zero =>
    intro acc last ls hchain h
    simp [get_revision_dependencies_loop] at h
  | succ fuel ih =>
    intro acc last ls hchain h
    simp only [get_revision_dependencies_loop] at h
    cases hu : dependenciesUnion revisions last with
    | error e => simp only [hu] at h; exact absurd h (by simp)
    | ok nl =>
      simp only [hu] at h
      by_cases hnl : nl = ∅
      · rw [if_pos hnl] at h
        have hls : last :: acc = ls := by simpa using h
        subst hls
        refine ⟨by simp, rfl, hchain, ?_⟩
        subst hnl
        simpa using hu
      · rw [if_neg hnl] at h
        have hchain2 : unionChain revisions (nl :: last :: acc) := by
          intro i hi
          cases i with
          | zero => simpa using hu
          | succ i =>
            have hi' : i + 1 < (last :: acc).length := by
              simpa using hi
            simpa using hchain i hi'
        obtain ⟨h1, h2, h3, h4⟩ := ih (last :: acc) nl ls hchain2 h
        refine ⟨h1, ?_, h3, h4⟩
        rw [h2]
        exact List.getLast?_cons_cons

/-- C9: whenever `get_revision_dependencies` returns a layering, that
layering is exactly the spec's ancestor chain: it is non-empty, its last
layer is the singleton of the target, each layer is the dependency union
of the layer after it (so the list is the reversed chain of dependency
unions), and the first (root-most) layer's dependency union is empty —
the stopping condition.  The applied set plays no role: it is not even an
input of the computation. -/
theorem c9_dependency_chain (revisions : String → Option DBRevision) (fuel : Nat)
    (revision_name : String) (ls : List (Finset String))
    (h : get_revision_dependencies revisions fuel revision_name = .ok ls) :
    ls ≠ [] ∧ ls.getLast? = some {revision_name} ∧ unionChain revisions ls ∧
      dependenciesUnion revisions (ls.getD 0 ∅) = .ok ∅ := by
  have hchain0 : unionChain revisions [{revision_name}] := by
    intro i hi
    simp at hi
  obtain ⟨h1, h2, h3, h4⟩ :=
    get_revision_dependencies_loop_ok revisions fuel [] {revision_name} ls hchain0 h
  exact ⟨h1, by simpa using h2, h3, h4⟩

/-- A three-revision chain `c` → `b` → `a`. -/
def c9Revs : String → Option DBRevision := fun n =>
  if n = "c" then some ⟨"c", {"b"}, none, true, none⟩
  else if n = "b" then some ⟨"b", {"a"}, none, true, none⟩
  else if n = "a" then some ⟨"a", ∅, none, true, none⟩ else none

/-- Witness for C9 on the concrete chain `c` → `b` → `a`. -/
theorem c9_witness :
    ([{"a"}, {"b"}, {"c"}] : List (Finset String)) ≠ [] ∧
    ([{"a"}, {"b"}, {"c"}] : List (Finset String)).getLast? = some {"c"} ∧
    unionChain c9Revs [{"a"}, {"b"}, {"c"}] ∧
    dependenciesUnion c9Revs
      (([{"a"}, {"b"}, {"c"}] : List (Finset String)).getD 0 ∅) = .ok ∅ :=
  c9_dependency_chain c9Revs 5 "c" [{"a"}, {"b"}, {"c"}] (by rfl)

theorem get_revision_dependencies_loop_lookups (revisions : String → Option DBRevision) :
    ∀ (fuel : Nat) (acc : List (Finset String)) (last : Finset String)
      (ls : List (Finset String)),
      (∀ L ∈ acc, ∀ r ∈ L, (revisions r).isSome) →
      get_revision_dependencies_loop revisions fuel acc last = .ok ls →
      ∀ L ∈ ls, ∀ r ∈ L, (revisions r).isSome := by
  intro fuel
  induction fuel with
  | zero =>
    intro acc last ls hacc h
    simp [get_revision_dependencies_loop] at h
  | succ fuel ih =>
    intro acc last ls hacc h
    simp only [get_revision_dependencies_loop] at h
    cases hu : dependenciesUnion revisions last with
    | error e => simp only [hu] at h; exact absurd h (by simp)
    | ok nl =>
      simp only [hu] at h
      have hlast := dependenciesUnion_ok_isSome hu
      by_cases hnl : nl = ∅
      · rw [if_pos hnl] at h
        have hls : last :: acc = ls := by simpa using h
        subst hls
        intro L hL
        rcases List.mem_cons.mp hL with hL | hL
        · exact hL ▸ hlast
        · exact hacc L hL
      · rw [if_neg hnl] at h
        refine ih (last :: acc) nl ls ?_ h
        intro L hL
        rcases List.mem_cons.mp hL with hL | hL
        · exact hL ▸ hlast
        · exact hacc L hL

/-- The layers the chain of dependency unions walks through: layer 0 is
the starting layer, and each following layer is the dependency union of
the previous one, as long as that union succeeds and is non-empty (exactly
the layers the loop of `get_revision_dependencies` processes in order).
A name is reached by the chain precisely when it belongs to one of these
layers. -/
def chainLayers (revisions : String → Option DBRevision) :
    Nat → Finset String → Option (Finset String)
  | 0, layer => some layer
  | k + 1, layer =>
    match dependenciesUnion revisions layer with
    | .ok u => if u = ∅ then none else chainLayers revisions k u
    | .error _ => none

theorem get_revision_dependencies_loop_keyerror (revisions : String → Option DBRevision) :
    ∀ (k fuel : Nat) (acc : List (Finset String)) (last L : Finset String),
      k < fuel → chainLayers revisions k last = some L →
      (∃ r ∈ L, revisions r = none) →
      get_revision_dependencies_loop revisions fuel acc last = .error .keyError := by
  intro k
  induction k with
  | zero =>
    intro fuel acc last L hk hchain hmiss
    have hL : last = L := by simpa [chainLayers] using hchain
    subst hL
    obtain ⟨r, hr, hnone⟩ := hmiss
    have hcond : ¬ ∀ s ∈ last, (revisions s).isSome := by
      intro hall
      have := hall r hr
      rw [hnone] at this
      simp at this
    cases fuel with
    | zero => omega
    | succ f =>
      simp only [get_revision_dependencies_loop, dependenciesUnion, if_neg hcond]
  | succ k ih =>
    intro fuel acc last L hk hchain hmiss
    simp only [chainLayers] at hchain
    cases hu : dependenciesUnion revisions last with
    | error e => simp only [hu] at hchain; exact absurd hchain (by simp)
    | ok u =>
      simp only [hu] at hchain
      by_cases hu0 : u = ∅
      · rw [if_pos hu0] at hchain
        exact absurd hchain (by simp)
      · rw [if_neg hu0] at hchain
        cases fuel with
        | zero => omega
        | succ f =>
          simp only [get_revision_dependencies_loop, hu, if_neg hu0]
          exact ih f (last :: acc) u L (by omega) hchain hmiss

/-- C10: whenever the target name, or any name reached through the chain
of dependency unions (a member of the chain's layer at any depth the
iteration budget covers — the target itself is the depth-0 layer), is
absent from the loaded mapping, `get_revision_dependencies` fails with the
lookup error; and conversely a layering is only ever returned when every
name in every returned layer is present in the mapping, so a missing
reached name can never yield a layering. -/
theorem c10_missing_name_keyerror (revisions : String → Option DBRevision)
    (fuel : Nat) (revision_name : String) :
    (∀ k L, k < fuel → chainLayers revisions k {revision_name} = some L →
      (∃ r ∈ L, revisions r = none) →
      get_revision_dependencies revisions fuel revision_name = .error .keyError) ∧
    (∀ ls, get_revision_dependencies revisions fuel revision_name = .ok ls →
      ∀ L ∈ ls, ∀ r ∈ L, (revisions r).isSome) := by
  constructor
  · intro k L hk hchain hmiss
    exact get_revision_dependencies_loop_keyerror revisions k fuel [] {revision_name} L
      hk hchain hmiss
  · intro ls h
    refine get_revision_dependencies_loop_lookups revisions fuel [] {revision_name} ls ?_ h
    intro L hL
    simp at hL

/-- A mapping in which `b` is loaded but its dependency `a` is not. -/
def c10Revs : String → Option DBRevision := fun n =>
  if n = "b" then some ⟨"b", {"a"}, none, true, none⟩ else none

/-- Witness for C10 at depth 1: the target `b` is loaded, but the name `a`
reached by the first dependency union is missing, and the call raises the
lookup error. -/
theorem c10_witness :
    get_revision_dependencies c10Revs 3 "b" = .error .keyError :=
  (c10_missing_name_keyerror c10Revs 3 "b").1 1 {"a"} (by omega) (by rfl)
    ⟨"a", by decide, rfl⟩
